import Mathlib

/-!
Verification development for the DCA decision-support engine of this
repository (files streamlit_app_simulator.py and streamlit_app.py).

The quantitative engine is shallowly embedded over the rationals:

* prices, budgets and band values are modelled as values of type Rat
  (the Python code computes with 64-bit floats; all claims under test are
  about exact algebraic relationships, branch logic and scan order, which
  the rational model captures faithfully);
* a row of the price table keeps the High, Low and Close columns, the only
  columns the engine reads (Open and Volume are never consulted by the
  simulator, the detectors or the classifier); the date of row i is
  modelled as the index i itself, which is faithful because the PriceSeries
  invariant guarantees strictly increasing dates, so row index and date are
  in order-preserving bijection;
* np.polyfit is modelled as the mathematical least-squares polynomial fit,
  computed exactly by solving the normal equations with Cramer's rule.
  For the abscissae produced by both fitting variants (n distinct points,
  degree at most n-1) the normal matrix is nonsingular, so the exact
  solution is the unique least-squares minimizer, which is what numpy
  approximates in floating point.  Where the determinant is zero the model
  returns the zero coefficient vector instead of failing, matching the
  fact that numpy's lstsq never raises on rank deficiency (it warns);
* np.std returns a square root, which is irrational in general; wherever a
  standard deviation enters the computation it is passed as an explicit
  parameter, and theorems that depend on its value constrain it by the
  defining property (nonnegative, square equals the population variance);
* Python statements that can raise are translated into Except-valued
  functions whose error values mark exactly the raising input classes;
* the mutable per-day state of run_dca_simulation is threaded explicitly
  through one function per phase of the day loop, in the source order:
  take-profit check, dividend accrual, buy decision, portfolio snapshot;
* colors and label texts attached to bands are presentation data never
  read by the engine and are omitted from the Band structure.
-/

namespace DcaEngine

/-- One row of the price table: the High, Low and Close columns read by the
engine.  The date of the row is its index in the list. -/
structure Row where
  high : ℚ
  low : ℚ
  close : ℚ
deriving DecidableEq, Repr

instance : Inhabited Row := ⟨⟨0, 0, 0⟩⟩

/-- One deviation band: the lower and the upper value sequence, aligned 1:1
with the price series.  The color and the two label strings stored in the
Python tuple are presentation-only and never read by the engine. -/
structure Band where
  lower : List ℚ
  upper : List ℚ
deriving DecidableEq, Repr

instance : Inhabited Band := ⟨⟨[], []⟩⟩

/-- Buy zone event as produced by detect_buy_signals: date (row index),
close price of the day, 1-based band level, and the lower-band value of
that day. -/
structure BuySig where
  date : ℕ
  price : ℚ
  zone_level : ℕ
  zone_price : ℚ
deriving DecidableEq, Repr

/- ------------------------------------------------------------------ -/
/- Model of np.polyfit: exact least squares via normal equations.      -/
/- ------------------------------------------------------------------ -/

/-- Removes column j from a matrix row. -/
def dropCol (j : ℕ) (row : List ℚ) : List ℚ :=
  row.take j ++ row.drop (j + 1)

/-- Determinant by Laplace expansion along the first row; the first
argument is the matrix dimension, used as the structural recursion
measure. -/
def detQ : ℕ → List (List ℚ) → ℚ
  | 0, _ => 1
  | n + 1, rows =>
    match rows with
    | [] => 1
    | firstRow :: rest =>
      (List.range (n + 1)).foldl
        (fun acc j =>
          acc + (-1 : ℚ) ^ j * firstRow.getD j 0 * detQ n (rest.map (dropCol j)))
        0

/-- Replaces column j of the matrix by the vector v (Cramer's rule). -/
def replaceCol (m : List (List ℚ)) (j : ℕ) (v : List ℚ) : List (List ℚ) :=
  (m.zip v).map (fun rb => rb.1.take j ++ [rb.2] ++ rb.1.drop (j + 1))

/-- Solves the square linear system m * c = v by Cramer's rule.  When the
determinant vanishes every quotient is the total rational division by
zero, i.e. 0: this mirrors that numpy's least-squares solver does not
raise on a singular system.  For the systems reachable from the fitting
pipelines the determinant is nonzero. -/
def cramerSolve (m : List (List ℚ)) (v : List ℚ) : List ℚ :=
  let d := detQ m.length m
  (List.range m.length).map (fun j => detQ m.length (replaceCol m j v) / d)

/-- Model of np.polyfit xs ys deg: coefficients (lowest power first) of the
least-squares polynomial of the given degree, obtained from the normal
equations of the Vandermonde system.  numpy returns the coefficients
highest power first and evaluates them with poly1d; the pipeline only ever
evaluates the polynomial, so the internal coefficient order is
unobservable. -/
def polyfitCoeffs (xs ys : List ℚ) (deg : ℕ) : List ℚ :=
  let m := (List.range (deg + 1)).map (fun j =>
    (List.range (deg + 1)).map (fun k => ((xs.map (fun x => x ^ (j + k))).sum)))
  let v := (List.range (deg + 1)).map (fun j =>
    (((xs.zip ys).map (fun p => p.1 ^ j * p.2)).sum))
  cramerSolve m v

/-- Horner-free evaluation helper: sum of c_k * x^(k0+k) over the
coefficient tail. -/
def polyValueAux (x : ℚ) : List ℚ → ℕ → ℚ
  | [], _ => 0
  | c :: rest, k => c * x ^ k + polyValueAux x rest (k + 1)

/-- Evaluates a coefficient list (lowest power first) at a point, the model
of np.poly1d applied to a value. -/
def polyValueAt (coeffs : List ℚ) (x : ℚ) : ℚ :=
  polyValueAux x coeffs 0

/-- Fitted values of the least-squares polynomial at all abscissae:
polynomial(x_transformed) in the Python source. -/
def polyfitValues (xs ys : List ℚ) (deg : ℕ) : List ℚ :=
  let c := polyfitCoeffs xs ys deg
  xs.map (polyValueAt c)

/- ------------------------------------------------------------------ -/
/- The two fitting variants.                                           -/
/- ------------------------------------------------------------------ -/

/-- Error values of the fitting pipelines, marking exactly the input
classes on which the Python code raises. -/
inductive FitError where
  /-- Zero-length series: np.max of an empty array raises ValueError in
  the original variant; in the enhanced variant the degree clamp makes the
  requested degree negative and np.polyfit raises ValueError. -/
  | emptySeries : FitError
  /-- One-point series in the original variant: np.max(arange(1)) is 0,
  the division x/0 produces non-finite abscissae and np.polyfit raises
  LinAlgError on them. -/
  | singletonSeries : FitError
deriving DecidableEq, Repr

/-- Degree clamp shared by both variants, lines 537-539 and 580-582 of
streamlit_app_simulator.py: if degree exceeds len - 1 it becomes
len - 1. -/
def clampDegree (degree n : ℕ) : ℕ :=
  if degree > n - 1 then n - 1 else degree

/-- Output of a fitting variant: the fitted baseline aligned with the
series, and the effective polynomial degree actually used. -/
structure FitOutput where
  regression : List ℚ
  effectiveDegree : ℕ
deriving DecidableEq, Repr

/-- Embeds calculate_regression_curve_original (simulator lines 530-569,
identical engine in streamlit_app.py): abscissae 0..n-1 normalized to
[0,1] by dividing by their maximum, dependent variable fitted unscaled,
degree clamped to n-1.  Band construction is the separate function
mkBands because the residual standard deviation is irrational in
general. -/
def calculate_regression_curve_original (y : List ℚ) (degree : ℕ) :
    Except FitError FitOutput :=
  if y.length = 0 then .error .emptySeries
  else if y.length = 1 then .error .singletonSeries
  else
    let n := y.length
    let deg := clampDegree degree n
    let xMax : ℚ := (n : ℚ) - 1
    let xs := (List.range n).map (fun i => (i : ℚ) / xMax)
    .ok ⟨polyfitValues xs y deg, deg⟩

/-- Embeds calculate_regression_curve_enhanced (simulator lines 573-631):
abscissae centered on their mean and divided by their standard deviation,
dependent variable centered and divided by its standard deviation, fit in
normalized space, then mapped back.  Both standard deviations are
irrational in general and are therefore taken as parameters; the source
substitutes 1 for a zero standard deviation, mirrored here.  The except
np.RankWarning branch of the source is unreachable in exact arithmetic
(the normal system of n distinct abscissae and degree at most n-1 is
nonsingular) and, independently, np.polyfit reports rank deficiency
through the warnings module rather than by raising, so no fallback path
exists in the model. -/
def calculate_regression_curve_enhanced (y : List ℚ) (degree : ℕ)
    (xstd ystd : ℚ) : Except FitError FitOutput :=
  if y.length = 0 then .error .emptySeries
  else
    let n := y.length
    let deg := clampDegree degree n
    let xMean : ℚ := (((List.range n).map (fun i => (i : ℚ))).sum) / (n : ℚ)
    let xsd := if xstd = 0 then 1 else xstd
    let xs := (List.range n).map (fun i => ((i : ℚ) - xMean) / xsd)
    let yMean : ℚ := y.sum / (n : ℚ)
    let ysd := if ystd = 0 then 1 else ystd
    let yScaled := y.map (fun v => (v - yMean) / ysd)
    let regScaled := polyfitValues xs yScaled deg
    .ok ⟨regScaled.map (fun v => v * ysd + yMean), deg⟩

/-- Residuals of a fit: original closes minus fitted baseline. -/
def residualsOf (y reg : List ℚ) : List ℚ :=
  (y.zip reg).map (fun p => p.1 - p.2)

/-- Population variance, the square of np.std. -/
def popVariance (l : List ℚ) : ℚ :=
  if l.length = 0 then 0
  else ((l.map (fun r => (r - l.sum / (l.length : ℚ)) ^ 2)).sum) / (l.length : ℚ)

/-- Property defining the value np.std returns on a list: nonnegative with
square equal to the population variance.  The value itself is irrational
in general, so functions that consume it take it as a parameter
constrained by this predicate. -/
def isStdOf (s : ℚ) (l : List ℚ) : Prop :=
  0 ≤ s ∧ s * s = popVariance l

instance (s : ℚ) (l : List ℚ) : Decidable (isStdOf s l) := by
  unfold isStdOf
  infer_instance

/-- Band with 1-based index i1: baseline shifted down respectively up by
i1 * 1.5 * stdResiduals. -/
def bandFor (regression : List ℚ) (stdR : ℚ) (i1 : ℕ) : Band :=
  ⟨regression.map (fun r => r - (i1 : ℚ) * (3 / 2) * stdR),
   regression.map (fun r => r + (i1 : ℚ) * (3 / 2) * stdR)⟩

/-- Band construction loop shared verbatim by both variants (simulator
lines 564-567 and 626-629): band i (1-based, i up to numBands) is the
baseline shifted down respectively up by i * 1.5 * stdResiduals. -/
def mkBands (regression : List ℚ) (stdR : ℚ) (numBands : ℕ) : List Band :=
  (List.range numBands).map (fun i0 => bandFor regression stdR (i0 + 1))

/-- Lower value of the band at list position j (0-based) and time t. -/
def bandLowerAt (bands : List Band) (j t : ℕ) : ℚ :=
  ((bands.getD j default).lower).getD t 0

/-- Upper value of the band at list position j (0-based) and time t. -/
def bandUpperAt (bands : List Band) (j t : ℕ) : ℚ :=
  ((bands.getD j default).upper).getD t 0

/-- The band at list position j of mkBands, for j below the band count. -/
theorem mkBands_getD (reg : List ℚ) (stdR : ℚ) (nb j : ℕ) (hj : j < nb) :
    (mkBands reg stdR nb).getD j default = bandFor reg stdR (j + 1) := by
  unfold mkBands
  rw [List.getD_eq_getElem?_getD, List.getElem?_map, List.getElem?_range hj]
  rfl

/-- Mapped list read back at an in-bounds index through getD. -/
theorem getD_map_inBounds (l : List ℚ) (f : ℚ → ℚ) (t : ℕ) (ht : t < l.length) :
    (l.map f).getD t 0 = f (l.getD t 0) := by
  rw [List.getD_eq_getElem?_getD, List.getElem?_map,
    List.getElem?_eq_getElem ht, List.getD_eq_getElem?_getD,
    List.getElem?_eq_getElem ht]
  rfl

/-- C6: for every price series of length n at least 2, requesting a degree
greater than n - 1 makes both fitting variants return successfully with
effective degree exactly n - 1: the clamp at lines 537-539 respectively
580-582 fires and nothing on the success path can raise. -/
theorem degree_clamp_effective (y : List ℚ) (d : ℕ) (h2 : 2 ≤ y.length)
    (hd : y.length - 1 < d) :
    (∃ fo1, calculate_regression_curve_original y d = .ok fo1 ∧
        fo1.effectiveDegree = y.length - 1) ∧
    (∀ xstd ystd, ∃ fo2,
        calculate_regression_curve_enhanced y d xstd ystd = .ok fo2 ∧
        fo2.effectiveDegree = y.length - 1) := by
  have h0 : ¬ y.length = 0 := by omega
  have h1 : ¬ y.length = 1 := by omega
  have hclamp : clampDegree d y.length = y.length - 1 := by
    unfold clampDegree
    simp only [if_pos (by omega : d > y.length - 1)]
  constructor
  · unfold calculate_regression_curve_original
    simp only [if_neg h0, if_neg h1]
    exact ⟨_, rfl, hclamp⟩
  · intro xstd ystd
    unfold calculate_regression_curve_enhanced
    simp only [if_neg h0]
    exact ⟨_, rfl, hclamp⟩

/-- Witness for degree_clamp_effective: the two-point series [1, 2] with
requested degree 5 satisfies the hypotheses, and both variants clamp the
effective degree to 1. -/
theorem degree_clamp_effective_is_witnessed :
    (∃ fo1, calculate_regression_curve_original [1, 2] 5 = .ok fo1 ∧
        fo1.effectiveDegree = ([1, 2] : List ℚ).length - 1) ∧
    (∀ xstd ystd, ∃ fo2,
        calculate_regression_curve_enhanced [1, 2] 5 xstd ystd = .ok fo2 ∧
        fo2.effectiveDegree = ([1, 2] : List ℚ).length - 1) :=
  degree_clamp_effective [1, 2] 5 (by norm_num) (by norm_num)

/-- C5 (amended): whenever the residual standard deviation is positive,
the bands built by the shared band loop strictly widen outward: at every
time step the lower sequence strictly decreases and the upper sequence
strictly increases with the band index, straddling the baseline.  Stated
for 0-based list positions j and j+1, i.e. band indices j+1 and j+2. -/
theorem band_ordering_strict (reg : List ℚ) (stdR : ℚ) (hs : 0 < stdR)
    (nb j t : ℕ) (hj : j + 1 < nb) (ht : t < reg.length) :
    bandLowerAt (mkBands reg stdR nb) (j + 1) t <
        bandLowerAt (mkBands reg stdR nb) j t ∧
    bandLowerAt (mkBands reg stdR nb) j t < reg.getD t 0 ∧
    reg.getD t 0 < bandUpperAt (mkBands reg stdR nb) j t ∧
    bandUpperAt (mkBands reg stdR nb) j t <
        bandUpperAt (mkBands reg stdR nb) (j + 1) t := by
  have hj0 : j < nb := by omega
  unfold bandLowerAt bandUpperAt
  rw [mkBands_getD reg stdR nb j hj0, mkBands_getD reg stdR nb (j + 1) hj]
  unfold bandFor
  simp only [getD_map_inBounds reg _ t ht]
  push_cast
  have hcast : (0 : ℚ) ≤ (j : ℚ) := by positivity
  have hlt : ((j : ℚ) + 1) * (3 / 2) * stdR < ((j : ℚ) + 1 + 1) * (3 / 2) * stdR := by
    nlinarith
  have hpos : 0 < ((j : ℚ) + 1) * (3 / 2) * stdR := by positivity
  refine ⟨by linarith, by linarith, by linarith, by linarith⟩

/-- Witness for band_ordering_strict: a concrete baseline with unit
residual standard deviation, checked between band indices 1 and 2 at time
step 0. -/
theorem band_ordering_strict_is_witnessed :
    bandLowerAt (mkBands [10] 1 4) 1 0 < bandLowerAt (mkBands [10] 1 4) 0 0 ∧
    bandLowerAt (mkBands [10] 1 4) 0 0 < ([10] : List ℚ).getD 0 0 ∧
    ([10] : List ℚ).getD 0 0 < bandUpperAt (mkBands [10] 1 4) 0 0 ∧
    bandUpperAt (mkBands [10] 1 4) 0 0 < bandUpperAt (mkBands [10] 1 4) 1 0 :=
  band_ordering_strict [10] 1 (by norm_num) 4 0 0 (by norm_num) (by norm_num)

/-- C5 (counterexample to the claim as stated): the two-point constant
series [1, 1] is fitted exactly by the original variant (requested degree
5, clamped to 1), every residual is zero, so the only admissible residual
standard deviation is 0 and the bands all coincide with the baseline: the
strict inequality lowerBand[2] < lowerBand[1] fails. -/
theorem band_ordering_cex :
    calculate_regression_curve_original [1, 1] 5 = .ok ⟨[1, 1], 1⟩ ∧
    isStdOf 0 (residualsOf [1, 1] [1, 1]) ∧
    ¬ (bandLowerAt (mkBands [1, 1] 0 4) 1 0 <
        bandLowerAt (mkBands [1, 1] 0 4) 0 0) := by
  refine ⟨?_, ?_, ?_⟩
  · norm_num [calculate_regression_curve_original, clampDegree, polyfitValues,
      polyfitCoeffs, cramerSolve, detQ, replaceCol, dropCol, polyValueAt,
      polyValueAux, List.range_succ]
  · unfold isStdOf popVariance residualsOf
    norm_num
  · norm_num [bandLowerAt, mkBands, bandFor, List.range_succ]

/- ------------------------------------------------------------------ -/
/- ZoneCrossingDetector: detect_buy_signals.                           -/
/- ------------------------------------------------------------------ -/

/-- Bands paired with their 1-based level, counting from k: the model of
Python's enumerate(bands, k). -/
def enumLevelsFrom : ℕ → List Band → List (ℕ × Band)
  | _, [] => []
  | k, b :: rest => (k, b) :: enumLevelsFrom (k + 1) rest

/-- Bands paired with their 1-based level: enumerate(bands, 1). -/
def enumLevels (bands : List Band) : List (ℕ × Band) :=
  enumLevelsFrom 1 bands

/-- Membership in the level enumeration, in terms of list indexing. -/
theorem enumLevelsFrom_mem (bs : List Band) (k lvl : ℕ) (b : Band) :
    (lvl, b) ∈ enumLevelsFrom k bs ↔
      k ≤ lvl ∧ lvl < k + bs.length ∧ bs[lvl - k]? = some b := by
  induction bs generalizing k with
  | nil => simp [enumLevelsFrom]
  | cons hd tl ih =>
    simp only [enumLevelsFrom, List.mem_cons, ih (k + 1), Prod.mk.injEq,
      List.length_cons]
    constructor
    · rintro (⟨rfl, rfl⟩ | ⟨h1, h2, h3⟩)
      · simp
      · refine ⟨by omega, by omega, ?_⟩
        rw [show lvl - k = (lvl - (k + 1)) + 1 by omega]
        simpa using h3
    · rintro ⟨h1, h2, h3⟩
      rcases Nat.eq_or_lt_of_le h1 with rfl | hlt
      · left
        simp only [Nat.sub_self, List.getElem?_cons_zero, Option.some.injEq] at h3
        exact ⟨rfl, h3.symm⟩
      · right
        refine ⟨by omega, by omega, ?_⟩
        rw [show lvl - k = (lvl - (k + 1)) + 1 by omega] at h3
        simpa using h3

/-- Buy trigger condition of detect_buy_signals (simulator lines 950-954)
for band b on day i: yesterday touched the lower-band value from below or
straddled it, and today both low and high stayed strictly above today's
lower-band value. -/
def buySignalCond (data : List Row) (b : Band) (i : ℕ) : Bool :=
  let today := data.getD i default
  let yest := data.getD (i - 1) default
  let bz := b.lower.getD i 0
  let bzy := b.lower.getD (i - 1) 0
  (yest.high > bzy && yest.low ≤ bzy) && (today.low > bz && today.high > bz)

/-- Event record appended by detect_buy_signals on a hit: today's date
(row index), today's close, the band level and today's lower-band
value. -/
def mkBuySig (data : List Row) (b : Band) (i lvl : ℕ) : BuySig :=
  ⟨i, (data.getD i default).close, lvl, b.lower.getD i 0⟩

/-- Inner band loop of detect_buy_signals for one day i: the events of
day i in ascending level order. -/
def buyBlock (data : List Row) (bands : List Band) (i : ℕ) : List BuySig :=
  (enumLevels bands).filterMap (fun lb =>
    if buySignalCond data lb.2 i then some (mkBuySig data lb.2 i lb.1) else none)

/-- Embeds detect_buy_signals (simulator lines 938-964): for each day
index i from 1 to len-1 and each band level in ascending order, emit an
event when the touch-then-hold condition fires.  The append-in-a-loop of
the source is the flatMap/filterMap comprehension. -/
def detect_buy_signals (data : List Row) (bands : List Band) : List BuySig :=
  (List.range' 1 (data.length - 1)).flatMap (buyBlock data bands)

/-- C7: an event is emitted by detect_buy_signals exactly for those pairs
of a day i (from the second observation on) and a band level such that
yesterday's high was strictly above yesterday's lower-band value,
yesterday's low at or below it, and today's low and high both strictly
above today's lower-band value; the event carries today's date, today's
close, the level, and today's lower-band value. -/
theorem detect_buy_signals_spec (data : List Row) (bands : List Band) (s : BuySig) :
    s ∈ detect_buy_signals data bands ↔
      ∃ i lvl b, 1 ≤ i ∧ i < data.length ∧ (lvl, b) ∈ enumLevels bands ∧
        (data.getD (i - 1) default).high > b.lower.getD (i - 1) 0 ∧
        (data.getD (i - 1) default).low ≤ b.lower.getD (i - 1) 0 ∧
        (data.getD i default).low > b.lower.getD i 0 ∧
        (data.getD i default).high > b.lower.getD i 0 ∧
        s = ⟨i, (data.getD i default).close, lvl, b.lower.getD i 0⟩ := by
  unfold detect_buy_signals buyBlock buySignalCond mkBuySig
  simp only [List.mem_flatMap, List.mem_range'_1, List.mem_filterMap,
    Option.ite_none_right_eq_some, Option.some.injEq, Bool.and_eq_true,
    decide_eq_true_eq]
  constructor
  · rintro ⟨i, ⟨h1, h2⟩, ⟨lvl, b⟩, hmem, ⟨⟨ha, hb⟩, hc, hd⟩, rfl⟩
    exact ⟨i, lvl, b, h1, by omega, hmem, ha, hb, hc, hd, rfl⟩
  · rintro ⟨i, lvl, b, h1, h2, hmem, ha, hb, hc, hd, rfl⟩
    exact ⟨i, ⟨h1, by omega⟩, ⟨lvl, b⟩, hmem, ⟨⟨ha, hb⟩, hc, hd⟩, rfl⟩

/- ------------------------------------------------------------------ -/
/- SignalClassifier: zone determination of analyze_market_position.    -/
/- ------------------------------------------------------------------ -/

/-- Last element of a rational sequence with default 0: models the
numpy index arr[-1] on the nonempty arrays the classifier receives. -/
def lastD (l : List ℚ) : ℚ :=
  l.getLast?.getD 0

/-- Zone kind assigned by the classifier scan. -/
inductive ZoneType where
  | buy : ZoneType
  | sell : ZoneType
deriving DecidableEq, Repr

/-- The three loop variables of the zone scan at simulator lines 680-700:
current_zone_level, zone_type and next_zone_level, each starting at
None. -/
structure ZoneScanState where
  current_zone_level : Option ℕ
  zone_type : Option ZoneType
  next_zone_level : Option ℕ
deriving DecidableEq, Repr

/-- Inner loop at simulator lines 696-699: the first level in
range(lvl+1, n+1) contained in the active take-profit zone list. -/
def nextHigherActive (active : List ℕ) (lvl n : ℕ) : Option ℕ :=
  (List.range' (lvl + 1) (n - lvl)).find? (fun h => active.contains h)

/-- Scan loop of simulator lines 685-700 over the remaining bands, with
lvl the 1-based level of the head band and n the total band count.  The
buy branch assigns and breaks; the sell branch assigns (overwriting any
earlier winner), recomputes next_zone_level only when a higher active
level exists, and keeps scanning, exactly as the source comment Keep
checking for higher zones says. -/
def zoneScanAux (price : ℚ) (active : List ℕ) (n : ℕ) :
    List Band → ℕ → ZoneScanState → ZoneScanState
  | [], _, s => s
  | b :: rest, lvl, s =>
    if price < lastD b.lower then
      { current_zone_level := some lvl, zone_type := some .buy,
        next_zone_level := s.next_zone_level }
    else if price > lastD b.upper ∧ lvl ∈ active then
      zoneScanAux price active n rest (lvl + 1)
        { current_zone_level := some lvl, zone_type := some .sell,
          next_zone_level :=
            match nextHigherActive active lvl n with
            | some h => some h
            | none => s.next_zone_level }
    else zoneScanAux price active n rest (lvl + 1) s

/-- Embeds the zone-determination section of analyze_market_position
(simulator lines 679-700).  The active take-profit zone list read from
st.session_state (default [1, 2, 3, 4]) is passed as the explicit
parameter active.  The rest of analyze_market_position only formats
recommendation text from this state and is not part of any claim. -/
def analyze_market_position_zone (price : ℚ) (bands : List Band)
    (active : List ℕ) : ZoneScanState :=
  zoneScanAux price active bands.length bands 1 ⟨none, none, none⟩

/-- Level lvl (1-based) is a winning sell level for the scan: within the
band range, the price strictly exceeds the last upper value of its band,
and the level is active. -/
def sellWin (price : ℚ) (bands : List Band) (active : List ℕ) (lvl : ℕ) : Prop :=
  1 ≤ lvl ∧ lvl ≤ bands.length ∧
    price > lastD ((bands.getD (lvl - 1) default).upper) ∧ lvl ∈ active

instance (price : ℚ) (bands : List Band) (active : List ℕ) (lvl : ℕ) :
    Decidable (sellWin price bands active lvl) := by
  unfold sellWin
  infer_instance

/-- A scan over bands that contains no buy hit and no winning sell level
leaves the state unchanged. -/
theorem zoneScanAux_skip (price : ℚ) (active : List ℕ) (n : ℕ) :
    ∀ (bs : List Band) (lvl0 : ℕ) (s : ZoneScanState),
      (∀ b ∈ bs, ¬ price < lastD b.lower) →
      (∀ k, k < bs.length →
        ¬ (price > lastD ((bs.getD k default).upper) ∧ (lvl0 + k) ∈ active)) →
      zoneScanAux price active n bs lvl0 s = s := by
  intro bs
  induction bs with
  | nil => intro lvl0 s _ _; rfl
  | cons b rest ih =>
    intro lvl0 s hnb hnw
    unfold zoneScanAux
    rw [if_neg (hnb b (List.mem_cons_self b rest))]
    rw [if_neg (by simpa using hnw 0 (by simp))]
    exact ih (lvl0 + 1) s (fun x hx => hnb x (List.mem_cons_of_mem b hx))
      (fun k hk => by
        have := hnw (k + 1) (by simpa using Nat.succ_lt_succ hk)
        simpa [Nat.add_assoc, Nat.add_comm 1 k, Nat.add_left_comm] using this)

/-- Behaviour of the scan when the suffix holds a last winning sell level:
the final current level is that winner, the type is sell, and whenever an
active level above the winner exists the next level is the lowest such
one.  The conclusion does not depend on the incoming state. -/
theorem zoneScanAux_lastWin (price : ℚ) (active : List ℕ) (n : ℕ) :
    ∀ (bs : List Band) (lvl0 : ℕ) (s : ZoneScanState) (k0 : ℕ),
      (∀ b ∈ bs, ¬ price < lastD b.lower) →
      k0 < bs.length →
      (price > lastD ((bs.getD k0 default).upper) ∧ (lvl0 + k0) ∈ active) →
      (∀ k, k0 < k → k < bs.length →
        ¬ (price > lastD ((bs.getD k default).upper) ∧ (lvl0 + k) ∈ active)) →
      (zoneScanAux price active n bs lvl0 s).current_zone_level = some (lvl0 + k0) ∧
      (zoneScanAux price active n bs lvl0 s).zone_type = some ZoneType.sell ∧
      (∀ h, nextHigherActive active (lvl0 + k0) n = some h →
        (zoneScanAux price active n bs lvl0 s).next_zone_level = some h) := by
  intro bs
  induction bs with
  | nil => intro lvl0 s k0 _ hk0; exact absurd hk0 (by simp)
  | cons b rest ih =>
    intro lvl0 s k0 hnb hk0 hwin hmax
    match k0 with
    | 0 =>
      simp only [List.getD_cons_zero, Nat.add_zero] at hwin
      have h1 : ¬ price < lastD b.lower := hnb b (List.mem_cons_self b rest)
      rw [zoneScanAux, if_neg h1, if_pos hwin,
        zoneScanAux_skip price active n rest (lvl0 + 1) _
          (fun x hx => hnb x (List.mem_cons_of_mem b hx))
          (fun k hk => by
            have := hmax (k + 1) (Nat.succ_pos k) (by simpa using Nat.succ_lt_succ hk)
            simpa [Nat.add_assoc, Nat.add_comm 1 k, Nat.add_left_comm] using this)]
      refine ⟨by simp, by simp, fun h hh => ?_⟩
      simp only [Nat.add_zero] at hh ⊢
      simp [hh]
    | k + 1 =>
      simp only [List.getD_cons_succ] at hwin
      have hk : k < rest.length := by simpa using hk0
      have harg : ∀ (s1 : ZoneScanState),
          (zoneScanAux price active n rest (lvl0 + 1) s1).current_zone_level =
              some (lvl0 + (k + 1)) ∧
          (zoneScanAux price active n rest (lvl0 + 1) s1).zone_type =
              some ZoneType.sell ∧
          (∀ h, nextHigherActive active (lvl0 + (k + 1)) n = some h →
            (zoneScanAux price active n rest (lvl0 + 1) s1).next_zone_level =
              some h) := by
        intro s1
        have hres := ih (lvl0 + 1) s1 k
          (fun x hx => hnb x (List.mem_cons_of_mem b hx)) hk
          (by
            constructor
            · exact hwin.1
            · have : lvl0 + 1 + k = lvl0 + (k + 1) := by omega
              rw [this]; exact hwin.2)
          (fun j hj hjlen => by
            have := hmax (j + 1) (by omega) (by simpa using Nat.succ_lt_succ hjlen)
            simpa [Nat.add_assoc, Nat.add_comm 1 j, Nat.add_left_comm] using this)
        have heq : lvl0 + 1 + k = lvl0 + (k + 1) := by omega
        rw [heq] at hres
        exact hres
      rw [zoneScanAux, if_neg (hnb b (List.mem_cons_self b rest))]
      by_cases hbw : price > lastD b.upper ∧ lvl0 ∈ active
      · rw [if_pos hbw]; exact harg _
      · rw [if_neg hbw]; exact harg s

/-- C3 (amended): when a price strictly exceeds the upper values of
several active bands (and no band triggers the buy branch), the scan of
analyze_market_position returns as current_zone_level the HIGHEST
(widest) winning active level, not the lowest: the sell branch of the
loop has no break and each later winner overwrites the earlier one.  When
an active level above that winner exists, next_zone_level is the lowest
such level. -/
theorem analyze_zone_widest_active_wins (price : ℚ) (bands : List Band)
    (active : List ℕ) (M : ℕ)
    (hnb : ∀ b ∈ bands, ¬ price < lastD b.lower)
    (hwin : sellWin price bands active M)
    (hmax : ∀ l, l < bands.length + 1 → sellWin price bands active l → l ≤ M) :
    (analyze_market_position_zone price bands active).current_zone_level = some M ∧
    (analyze_market_position_zone price bands active).zone_type = some ZoneType.sell ∧
    (∀ h, nextHigherActive active M bands.length = some h →
      (analyze_market_position_zone price bands active).next_zone_level = some h) := by
  obtain ⟨hM1, hMlen, hMabove, hMact⟩ := hwin
  have hres := zoneScanAux_lastWin price active bands.length bands 1
    ⟨none, none, none⟩ (M - 1) hnb (by omega)
    (by
      constructor
      · exact hMabove
      · have : 1 + (M - 1) = M := by omega
        rw [this]; exact hMact)
    (fun k hk hklen hcon => by
      have hsw : sellWin price bands active (k + 1) := by
        refine ⟨by omega, by omega, ?_, ?_⟩
        · simpa using hcon.1
        · have : 1 + k = k + 1 := by omega
          rw [this] at hcon
          exact hcon.2
      have := hmax (k + 1) (by omega) hsw
      omega)
  have heq : 1 + (M - 1) = M := by omega
  rw [heq] at hres
  exact hres

/-- Witness for analyze_zone_widest_active_wins: four bands whose last
upper values are 10, 20, 30, 40, price 25, all levels active.  Levels 1
and 2 win; the scan returns level 2 with next level 3. -/
theorem analyze_zone_widest_active_wins_is_witnessed :
    (analyze_market_position_zone 25
        [⟨[0], [10]⟩, ⟨[-1], [20]⟩, ⟨[-2], [30]⟩, ⟨[-3], [40]⟩]
        [1, 2, 3, 4]).current_zone_level = some 2 ∧
    (analyze_market_position_zone 25
        [⟨[0], [10]⟩, ⟨[-1], [20]⟩, ⟨[-2], [30]⟩, ⟨[-3], [40]⟩]
        [1, 2, 3, 4]).zone_type = some ZoneType.sell ∧
    (∀ h, nextHigherActive [1, 2, 3, 4] 2 4 = some h →
      (analyze_market_position_zone 25
          [⟨[0], [10]⟩, ⟨[-1], [20]⟩, ⟨[-2], [30]⟩, ⟨[-3], [40]⟩]
          [1, 2, 3, 4]).next_zone_level = some h) :=
  analyze_zone_widest_active_wins 25
    [⟨[0], [10]⟩, ⟨[-1], [20]⟩, ⟨[-2], [30]⟩, ⟨[-3], [40]⟩]
    [1, 2, 3, 4] 2 (by decide) (by decide) (by decide)

/-- C3 (counterexample to the claim as stated): with the four bands of
last upper values 10, 20, 30, 40, all levels active and price 25, the
price strictly exceeds the upper values of active bands 1 and 2, yet the
scan returns current_zone_level 2 (the widest winner) rather than the
claimed lowest level 1, and next_zone_level 3 rather than 2. -/
theorem analyze_zone_cex :
    analyze_market_position_zone 25
        [⟨[0], [10]⟩, ⟨[-1], [20]⟩, ⟨[-2], [30]⟩, ⟨[-3], [40]⟩]
        [1, 2, 3, 4] =
      ⟨some 2, some ZoneType.sell, some 3⟩ ∧
    (25 : ℚ) > lastD ([10] : List ℚ) ∧ (1 : ℕ) ∈ ([1, 2, 3, 4] : List ℕ) ∧
    some (2 : ℕ) ≠ some (1 : ℕ) := by
  refine ⟨?_, by decide, by decide, by decide⟩
  decide

/- ------------------------------------------------------------------ -/
/- DcaSimulator: run_dca_simulation.                                   -/
/- ------------------------------------------------------------------ -/

/-- Dividend description handed to the simulator: whether the asset pays
and the annual dividend rate. -/
structure DividendInfo where
  pays_dividend : Bool
  dividend_rate : ℚ
deriving DecidableEq, Repr

/-- One simulated purchase lot, mirroring the buy_record dict of the
simulator; the six sell fields start as None and are stamped together by
a sell-all event. -/
structure Position where
  buy_date : ℕ
  buy_price : ℚ
  buy_level : ℕ
  buy_type : String
  shares : ℚ
  amount_invested : ℚ
  sell_date : Option ℕ
  sell_price : Option ℚ
  sell_level : Option ℕ
  profit_loss : Option ℚ
  roi : Option ℚ
  hold_days : Option ℕ
deriving DecidableEq, Repr

instance : Inhabited Position := ⟨⟨0, 0, 0, "", 0, 0, none, none, none, none, none, none⟩⟩

/-- One entry of the trades ledger. -/
structure Trade where
  date : ℕ
  ttype : String
  level : ℕ
  price : ℚ
  shares : ℚ
  amount : ℚ
deriving DecidableEq, Repr

/-- One entry of the daily portfolio history. -/
structure Snapshot where
  date : ℕ
  total_invested : ℚ
  portfolio_value : ℚ
  shares : ℚ
  cash : ℚ
deriving DecidableEq, Repr

/-- The mutable locals of run_dca_simulation threaded through the day
loop. -/
structure SimState where
  total_invested : ℚ
  total_shares : ℚ
  cash_from_sales : ℚ
  dividend_income : ℚ
  dividend_shares_bought : ℚ
  trades : List Trade
  position_history : List Position
  daily_buy_count : ℕ
  zone_buy_count : ℕ
  sell_count : ℕ
  portfolio_history : List Snapshot
deriving DecidableEq, Repr

/-- Zero-initialised simulator state (simulator lines 1011-1026). -/
def initSimState : SimState :=
  ⟨0, 0, 0, 0, 0, [], [], 0, 0, 0, []⟩

/-- Immutable inputs of one simulator run. -/
structure SimCtx where
  data : List Row
  bands : List Band
  total_budget : ℚ
  investment_years : ℚ
  asset_type : String
  dividend_info : Option DividendInfo
  regression_values : List ℚ
deriving DecidableEq, Repr

/-- Take-profit crossing test of simulator lines 1045-1048 for one band:
yesterday's high strictly below yesterday's upper value, and today's high
or today's close at or above today's upper value. -/
def tpConditionAt (b : Band) (i : ℕ) (yHigh tHigh tClose : ℚ) : Bool :=
  yHigh < b.upper.getD (i - 1) 0 &&
    (tHigh ≥ b.upper.getD i 0 || tClose ≥ b.upper.getD i 0)

/-- First qualifying take-profit level in the remaining bands, lvl being
the 1-based level of the head band: the for-loop with break at simulator
lines 1039-1074. -/
def findTPLevelAux (i : ℕ) (yHigh tHigh tClose : ℚ) : List Band → ℕ → Option ℕ
  | [], _ => none
  | b :: rest, lvl =>
    if tpConditionAt b i yHigh tHigh tClose then some lvl
    else findTPLevelAux i yHigh tHigh tClose rest (lvl + 1)

/-- First qualifying take-profit band level on day i, scanning bands from
level 1 upward. -/
def findTPLevel (bands : List Band) (i : ℕ) (yHigh tHigh tClose : ℚ) : Option ℕ :=
  findTPLevelAux i yHigh tHigh tClose bands 1

/-- Sell stamp applied to every still-open position by a sell-all event
(simulator lines 1055-1062): records date, price and level of the sale,
absolute profit, percentage roi and the holding period in row indices
(trading days). -/
def stampPosition (date : ℕ) (price : ℚ) (lvl : ℕ) (pos : Position) : Position :=
  if pos.sell_date = none then
    { pos with
      sell_date := some date,
      sell_price := some price,
      sell_level := some lvl,
      profit_loss := some ((price - pos.buy_price) * pos.shares),
      roi := some ((price - pos.buy_price) / pos.buy_price * 100),
      hold_days := some (date - pos.buy_date) }
  else pos

/-- Phase 1 of the day loop (simulator lines 1036-1074): if shares are
held and the day is not the first, scan bands for a take-profit crossing;
on the first hit sell the entire bag at today's close, stamp every open
position, append a SELL trade, zero the share count and stop scanning. -/
def sellPhase (ctx : SimCtx) (i : ℕ) (st : SimState) : SimState :=
  let today := ctx.data.getD i default
  let yest := ctx.data.getD (i - 1) default
  if 0 < st.total_shares ∧ 0 < i then
    match findTPLevel ctx.bands i yest.high today.high today.close with
    | some lvl =>
      let sale := st.total_shares * today.close
      { st with
        cash_from_sales := st.cash_from_sales + sale,
        sell_count := st.sell_count + 1,
        position_history := st.position_history.map (stampPosition i today.close lvl),
        trades := st.trades ++ [⟨i, "SELL", lvl, today.close, st.total_shares, sale⟩],
        total_shares := 0 }
    | none => st
  else st

/-- Truthiness of the dividend_info argument combined with its
pays_dividend flag, as tested at simulator line 1077. -/
def paysDividend : Option DividendInfo → Bool
  | some di => di.pays_dividend
  | none => false

/-- Phase 2 of the day loop (simulator lines 1077-1084): quarterly
dividend accrual for dividend-paying stocks while shares are held, on
every 90th day index, reinvested immediately at today's close. -/
def divPhase (ctx : SimCtx) (i : ℕ) (st : SimState) : SimState :=
  let price := (ctx.data.getD i default).close
  if ctx.asset_type = "Stock" ∧ paysDividend ctx.dividend_info = true ∧
      0 < st.total_shares ∧ 0 < i ∧ i % 90 = 0 then
    let di := ctx.dividend_info.getD ⟨false, 0⟩
    let q := di.dividend_rate / 4 * st.total_shares
    { st with
      dividend_income := st.dividend_income + q,
      total_shares := st.total_shares + q / price,
      dividend_shares_bought := st.dividend_shares_bought + q / price }
  else st

/-- Lookup in the dict comprehension zone_buy_dates of simulator line
1025: a Python dict built from a list keeps, per key, the LAST item with
that key, hence getLast? of the signals filtered to the date. -/
def zoneBuyLookup (sigs : List BuySig) (d : ℕ) : Option BuySig :=
  (sigs.filter (fun s => s.date == d)).getLast?

/-- Phase 3 of the day loop (simulator lines 1086-1150): a 5x zone buy
when today's date carries a zone-buy signal, otherwise a 1x daily DCA buy
when today's close is strictly below today's regression value, otherwise
nothing. -/
def buyPhase (ctx : SimCtx) (ddca : ℚ) (sigs : List BuySig) (i : ℕ)
    (st : SimState) : SimState :=
  let price := (ctx.data.getD i default).close
  match zoneBuyLookup sigs i with
  | some sig =>
    let amt := ddca * 5
    let sh := amt / price
    { st with
      total_invested := st.total_invested + amt,
      total_shares := st.total_shares + sh,
      zone_buy_count := st.zone_buy_count + 1,
      position_history := st.position_history ++
        [⟨i, price, sig.zone_level, "5X Zone", sh, amt, none, none, none, none, none, none⟩],
      trades := st.trades ++ [⟨i, "BUY 5X", sig.zone_level, price, sh, amt⟩] }
  | none =>
    if price < ctx.regression_values.getD i 0 then
      let amt := ddca
      let sh := amt / price
      { st with
        total_invested := st.total_invested + amt,
        total_shares := st.total_shares + sh,
        daily_buy_count := st.daily_buy_count + 1,
        position_history := st.position_history ++
          [⟨i, price, 0, "Daily DCA", sh, amt, none, none, none, none, none, none⟩],
        trades := st.trades ++ [⟨i, "BUY Daily", 0, price, sh, amt⟩] }
    else st

/-- Phase 4 of the day loop (simulator lines 1152-1160): append the daily
portfolio snapshot. -/
def snapshotPhase (ctx : SimCtx) (i : ℕ) (st : SimState) : SimState :=
  let price := (ctx.data.getD i default).close
  { st with
    portfolio_history := st.portfolio_history ++
      [⟨i, st.total_invested, st.total_shares * price + st.cash_from_sales,
        st.total_shares, st.cash_from_sales⟩] }

/-- One day of the simulation, phases in source order: take-profit check,
dividend accrual, buy decision, snapshot. -/
def dayStep (ctx : SimCtx) (ddca : ℚ) (sigs : List BuySig) (i : ℕ)
    (st : SimState) : SimState :=
  snapshotPhase ctx i (buyPhase ctx ddca sigs i (divPhase ctx i (sellPhase ctx i st)))

/-- The day loop over the given day indices. -/
def simLoop (ctx : SimCtx) (ddca : ℚ) (sigs : List BuySig) :
    List ℕ → SimState → SimState
  | [], st => st
  | i :: rest, st => simLoop ctx ddca sigs rest (dayStep ctx ddca sigs i st)

/-- Error values of the simulator, marking the raising inputs. -/
inductive SimError where
  /-- Zero trading days: the very first statement
  daily_dca_amount = total_budget / trading_days_in_period divides a
  Python float by the int 0 and raises ZeroDivisionError. -/
  | zeroTradingDays : SimError
deriving DecidableEq, Repr

/-- Aggregate returned by run_dca_simulation, field for field the dict of
simulator lines 1181-1200. -/
structure SimResult where
  total_invested : ℚ
  total_shares : ℚ
  cash_from_sales : ℚ
  current_value : ℚ
  dividend_income : ℚ
  dividend_shares_bought : ℚ
  dividend_shares_value : ℚ
  total_return : ℚ
  roi_percentage : ℚ
  next_tp_level : Option ℕ
  next_tp_price : Option ℚ
  trades : List Trade
  portfolio_history : List Snapshot
  daily_buy_count : ℕ
  zone_buy_count : ℕ
  sell_count : ℕ
  daily_dca_amount : ℚ
  position_history : List Position
deriving DecidableEq, Repr

/-- One step of the next-take-profit search of simulator lines 1174-1179:
keep the lowest last upper value still above the current price. -/
def nextTPUpdate (cp : ℚ) (acc : Option ℕ × Option ℚ) (lb : ℕ × Band) :
    Option ℕ × Option ℚ :=
  let tp := lastD lb.2.upper
  if tp > cp then
    match acc.2 with
    | none => (some lb.1, some tp)
    | some p => if tp < p then (some lb.1, some tp) else acc
  else acc

/-- Next-take-profit search over all bands. -/
def nextTPScan (bands : List Band) (cp : ℚ) : Option ℕ × Option ℚ :=
  (enumLevels bands).foldl (nextTPUpdate cp) (none, none)

/-- The daily DCA allotment of simulator line 1006: the budget divided by
the number of trading days actually simulated. -/
def dailyDcaAmount (ctx : SimCtx) : ℚ :=
  ctx.total_budget / (ctx.data.length : ℚ)

/-- Success path of run_dca_simulation: the day loop over all row indices
followed by the final aggregation of simulator lines 1162-1200. -/
def simAggregate (ctx : SimCtx) : SimResult :=
  let n := ctx.data.length
  let ddca := dailyDcaAmount ctx
  let sigs := detect_buy_signals ctx.data ctx.bands
  let fin := simLoop ctx ddca sigs (List.range n) initSimState
  let current_price := (ctx.data.getD (n - 1) default).close
  let current_value := fin.total_shares * current_price
  let total_return := fin.cash_from_sales + current_value - fin.total_invested
  let roi_percentage :=
    if 0 < fin.total_invested then total_return / fin.total_invested * 100 else 0
  let ntp := nextTPScan ctx.bands current_price
  ⟨fin.total_invested, fin.total_shares, fin.cash_from_sales, current_value,
    fin.dividend_income, fin.dividend_shares_bought,
    fin.dividend_shares_bought * current_price, total_return, roi_percentage,
    ntp.1, ntp.2, fin.trades, fin.portfolio_history, fin.daily_buy_count,
    fin.zone_buy_count, fin.sell_count, ddca, fin.position_history⟩

/-- Embeds run_dca_simulation (simulator lines 996-1200).  A zero-length
series makes the Python function raise ZeroDivisionError on its very
first statement; every other input follows the day loop and the final
aggregation.  The investment_years argument is carried in the context but
never read by the Python function body, which derives the daily amount
from the actual row count. -/
def run_dca_simulation (ctx : SimCtx) : Except SimError SimResult :=
  if ctx.data.length = 0 then .error .zeroTradingDays
  else .ok (simAggregate ctx)

/-- C2 (divergence witness): on a zero-length price series the simulator
does not return an all-zero SimulationResult; it stops at the division
total_budget / 0 with a ZeroDivisionError, modelled as the error value
zeroTradingDays.  Stated for every budget, horizon, asset type, dividend
description, band list and baseline. -/
theorem run_dca_simulation_empty_raises (budget years : ℚ) (aty : String)
    (di : Option DividendInfo) (bands : List Band) (reg : List ℚ) :
    run_dca_simulation ⟨[], bands, budget, years, aty, di, reg⟩ =
      .error SimError.zeroTradingDays := by
  rfl

/- ------------------------------------------------------------------ -/
/- C9: the exact total-invested accounting identity.                   -/
/- ------------------------------------------------------------------ -/

/-- Accounting identity threaded through the day loop: the invested total
is the daily allotment times (daily buys + 5 * zone buys). -/
def investedEq (ddca : ℚ) (st : SimState) : Prop :=
  st.total_invested = ddca * ((st.daily_buy_count : ℚ) + 5 * (st.zone_buy_count : ℚ))

/-- The take-profit phase moves no invested cash and no buy counters. -/
theorem sellPhase_investedEq (ctx : SimCtx) (i : ℕ) (st : SimState) (ddca : ℚ)
    (h : investedEq ddca st) : investedEq ddca (sellPhase ctx i st) := by
  unfold investedEq sellPhase at *
  dsimp only
  split
  · split
    · simpa using h
    · exact h
  · exact h

/-- The dividend phase moves no invested cash and no buy counters. -/
theorem divPhase_investedEq (ctx : SimCtx) (i : ℕ) (st : SimState) (ddca : ℚ)
    (h : investedEq ddca st) : investedEq ddca (divPhase ctx i st) := by
  unfold investedEq divPhase at *
  split
  · simpa using h
  · exact h

/-- The snapshot phase moves no invested cash and no buy counters. -/
theorem snapshotPhase_investedEq (ctx : SimCtx) (i : ℕ) (st : SimState) (ddca : ℚ)
    (h : investedEq ddca st) : investedEq ddca (snapshotPhase ctx i st) := by
  unfold investedEq snapshotPhase at *
  simpa using h

/-- The buy phase preserves the accounting identity: a zone buy adds
5 * ddca and bumps the zone counter, a daily buy adds ddca and bumps the
daily counter. -/
theorem buyPhase_investedEq (ctx : SimCtx) (ddca : ℚ) (sigs : List BuySig)
    (i : ℕ) (st : SimState) (h : investedEq ddca st) :
    investedEq ddca (buyPhase ctx ddca sigs i st) := by
  unfold investedEq buyPhase at *
  cases hz : zoneBuyLookup sigs i with
  | some sig =>
    simp only [hz]
    push_cast
    ring_nf
    ring_nf at h
    linarith
  | none =>
    simp only [hz]
    split
    · simp only [SimState.mk.injEq]
      push_cast
      ring_nf
      ring_nf at h
      linarith
    · exact h

/-- One full day preserves the accounting identity. -/
theorem dayStep_investedEq (ctx : SimCtx) (ddca : ℚ) (sigs : List BuySig)
    (i : ℕ) (st : SimState) (h : investedEq ddca st) :
    investedEq ddca (dayStep ctx ddca sigs i st) := by
  unfold dayStep
  exact snapshotPhase_investedEq _ _ _ _
    (buyPhase_investedEq _ _ _ _ _ (divPhase_investedEq _ _ _ _
      (sellPhase_investedEq _ _ _ _ h)))

/-- The whole day loop preserves the accounting identity. -/
theorem simLoop_investedEq (ctx : SimCtx) (ddca : ℚ) (sigs : List BuySig) :
    ∀ (days : List ℕ) (st : SimState), investedEq ddca st →
      investedEq ddca (simLoop ctx ddca sigs days st) := by
  intro days
  induction days with
  | nil => intro st h; exact h
  | cons i rest ih =>
    intro st h
    exact ih _ (dayStep_investedEq ctx ddca sigs i st h)

/-- Context on which a zone buy makes the invested total exceed the
budget: two identical rows, one band whose lower values 1 and 1/2 fire
the touch-then-hold buy signal on day 1, upper values far away, baseline
0 so no daily DCA buy occurs, budget 2. -/
def exceedCtx : SimCtx :=
  ⟨[⟨2, 1, 1⟩, ⟨2, 1, 1⟩], [⟨[1, 1 / 2], [100, 100]⟩], 2, 1, "Crypto", none, [0, 0]⟩

/-- C9: on every successful run, total_invested equals the daily DCA
amount times (daily buys + 5 * zone buys), exactly, with the daily amount
being the budget divided by the series length; consequently the invested
total is not capped by the budget, and on the concrete context exceedCtx
a single zone buy already pushes the invested total (5) above the budget
(2). -/
theorem total_invested_identity :
    (∀ (ctx : SimCtx) (r : SimResult), run_dca_simulation ctx = .ok r →
      r.total_invested =
        r.daily_dca_amount * ((r.daily_buy_count : ℚ) + 5 * (r.zone_buy_count : ℚ)) ∧
      r.daily_dca_amount = ctx.total_budget / (ctx.data.length : ℚ)) ∧
    (∃ r1 : SimResult, run_dca_simulation exceedCtx = .ok r1 ∧
      1 ≤ r1.zone_buy_count ∧ exceedCtx.total_budget < r1.total_invested) := by
  constructor
  · intro ctx r h
    unfold run_dca_simulation at h
    split at h
    · exact absurd h (by simp)
    · simp only [Except.ok.injEq] at h
      subst h
      constructor
      · have hinv := simLoop_investedEq ctx (dailyDcaAmount ctx)
          (detect_buy_signals ctx.data ctx.bands) (List.range ctx.data.length)
          initSimState (by unfold investedEq initSimState; norm_num)
        unfold investedEq at hinv
        simpa [simAggregate] using hinv
      · simp [simAggregate, dailyDcaAmount]
  · refine ⟨simAggregate exceedCtx, by simp [run_dca_simulation, exceedCtx], ?_, ?_⟩
    · norm_num [exceedCtx, simAggregate, dailyDcaAmount, detect_buy_signals, buyBlock,
        enumLevels, enumLevelsFrom, buySignalCond, mkBuySig, simLoop, dayStep,
        sellPhase, divPhase, buyPhase, snapshotPhase, findTPLevel, findTPLevelAux,
        tpConditionAt, stampPosition, zoneBuyLookup, paysDividend, nextTPScan,
        nextTPUpdate, lastD, initSimState, List.range_succ, List.range',
        List.filterMap_cons, List.filterMap_nil, List.filter_cons, List.filter_nil,
        List.find?_cons, List.find?_nil, List.flatMap_cons, List.flatMap_nil,
        List.reverse_cons, List.reverse_nil]
    · norm_num [exceedCtx, simAggregate, dailyDcaAmount, detect_buy_signals, buyBlock,
        enumLevels, enumLevelsFrom, buySignalCond, mkBuySig, simLoop, dayStep,
        sellPhase, divPhase, buyPhase, snapshotPhase, findTPLevel, findTPLevelAux,
        tpConditionAt, stampPosition, zoneBuyLookup, paysDividend, nextTPScan,
        nextTPUpdate, lastD, initSimState, List.range_succ, List.range',
        List.filterMap_cons, List.filterMap_nil, List.filter_cons, List.filter_nil,
        List.find?_cons, List.find?_nil, List.flatMap_cons, List.flatMap_nil,
        List.reverse_cons, List.reverse_nil]

/-- Witness for total_invested_identity: the universally quantified part
applied to the concrete context exceedCtx, whose run succeeds. -/
theorem total_invested_identity_is_witnessed :
    (simAggregate exceedCtx).total_invested =
      (simAggregate exceedCtx).daily_dca_amount *
        (((simAggregate exceedCtx).daily_buy_count : ℚ) +
          5 * ((simAggregate exceedCtx).zone_buy_count : ℚ)) ∧
    (simAggregate exceedCtx).daily_dca_amount =
      exceedCtx.total_budget / (exceedCtx.data.length : ℚ) :=
  total_invested_identity.1 exceedCtx (simAggregate exceedCtx)
    (by simp [run_dca_simulation, exceedCtx])

/- ------------------------------------------------------------------ -/
/- C10: at most one zone buy per date, level of the last signal.       -/
/- ------------------------------------------------------------------ -/

/-- The take-profit phase appends at most one trade, a SELL dated
today. -/
theorem sellPhase_trades_spec (ctx : SimCtx) (i : ℕ) (st : SimState) :
    ∃ ts : List Trade, (sellPhase ctx i st).trades = st.trades ++ ts ∧
      ∀ t ∈ ts, t.date = i ∧ t.ttype = "SELL" := by
  unfold sellPhase
  dsimp only
  split
  · split
    · refine ⟨_, rfl, ?_⟩
      intro t ht
      simp only [List.mem_singleton] at ht
      subst ht
      exact ⟨rfl, rfl⟩
    · exact ⟨[], by simp, by simp⟩
  · exact ⟨[], by simp, by simp⟩

/-- The dividend phase leaves the trades ledger unchanged. -/
theorem divPhase_trades (ctx : SimCtx) (i : ℕ) (st : SimState) :
    (divPhase ctx i st).trades = st.trades := by
  unfold divPhase
  dsimp only
  split <;> rfl

/-- The snapshot phase leaves the trades ledger unchanged. -/
theorem snapshotPhase_trades (ctx : SimCtx) (i : ℕ) (st : SimState) :
    (snapshotPhase ctx i st).trades = st.trades := rfl

/-- The buy phase appends at most one trade dated today; when it is a 5x
zone trade its recorded level is the level of the signal found in the
date-keyed dict, i.e. the last signal emitted for today. -/
theorem buyPhase_trades_spec (ctx : SimCtx) (ddca : ℚ) (sigs : List BuySig)
    (i : ℕ) (st : SimState) :
    ∃ ts : List Trade, (buyPhase ctx ddca sigs i st).trades = st.trades ++ ts ∧
      (∀ t ∈ ts, t.date = i) ∧
      (ts.filter (fun t => t.ttype == "BUY 5X")).length ≤ 1 ∧
      (∀ t ∈ ts, t.ttype = "BUY 5X" →
        ∃ s, zoneBuyLookup sigs i = some s ∧ t.level = s.zone_level) := by
  unfold buyPhase
  dsimp only
  cases hz : zoneBuyLookup sigs i with
  | some sig =>
    refine ⟨_, rfl, ?_, ?_, ?_⟩
    · intro t ht
      simp only [List.mem_singleton] at ht
      subst ht
      rfl
    · simp
    · intro t ht _
      simp only [List.mem_singleton] at ht
      subst ht
      exact ⟨sig, rfl, rfl⟩
  | none =>
    dsimp only
    split
    · refine ⟨_, rfl, ?_, ?_, ?_⟩
      · intro t ht
        simp only [List.mem_singleton] at ht
        subst ht
        rfl
      · simp
      · intro t ht htt
        simp only [List.mem_singleton] at ht
        subst ht
        simp at htt
    · exact ⟨[], by simp, by simp, by simp, by simp⟩

/-- One day appends only trades dated today, among them at most one 5x
zone trade, whose level is the one of the dict entry for today. -/
theorem dayStep_trades_spec (ctx : SimCtx) (ddca : ℚ) (sigs : List BuySig)
    (i : ℕ) (st : SimState) :
    ∃ ts : List Trade, (dayStep ctx ddca sigs i st).trades = st.trades ++ ts ∧
      (∀ t ∈ ts, t.date = i) ∧
      (ts.filter (fun t => t.ttype == "BUY 5X")).length ≤ 1 ∧
      (∀ t ∈ ts, t.ttype = "BUY 5X" →
        ∃ s, zoneBuyLookup sigs i = some s ∧ t.level = s.zone_level) := by
  obtain ⟨ts1, h1, h1p⟩ := sellPhase_trades_spec ctx i st
  obtain ⟨ts2, h2, h2d, h2len, h2lvl⟩ :=
    buyPhase_trades_spec ctx ddca sigs i (divPhase ctx i (sellPhase ctx i st))
  have hzero : (ts1.filter (fun t => t.ttype == "BUY 5X")).length = 0 := by
    rw [List.length_eq_zero, List.filter_eq_nil_iff]
    intro t ht
    simp [(h1p t ht).2]
  refine ⟨ts1 ++ ts2, ?_, ?_, ?_, ?_⟩
  · unfold dayStep
    rw [snapshotPhase_trades, h2, divPhase_trades, h1, List.append_assoc]
  · intro t ht
    rcases List.mem_append.mp ht with h | h
    · exact (h1p t h).1
    · exact h2d t h
  · rw [List.filter_append, List.length_append, hzero]
    simpa using h2len
  · intro t ht htt
    rcases List.mem_append.mp ht with h | h
    · exact absurd htt (by simp [(h1p t h).2])
    · exact h2lvl t h htt

/-- Ledger shape maintained by the day loop: per date at most one 5x zone
trade, and every 5x zone trade carries the level of the dict entry for
its date. -/
def tradesSpec (sigs : List BuySig) (st : SimState) : Prop :=
  (∀ d, ((st.trades.filter (fun t => t.ttype == "BUY 5X" && t.date == d)).length ≤ 1)) ∧
  (∀ t ∈ st.trades, t.ttype = "BUY 5X" →
    ∃ s, zoneBuyLookup sigs t.date = some s ∧ t.level = s.zone_level)

/-- The day loop maintains the ledger shape when started on distinct days
none of which is already present in the ledger. -/
theorem simLoop_tradesSpec (ctx : SimCtx) (ddca : ℚ) (sigs : List BuySig) :
    ∀ (days : List ℕ) (st : SimState), days.Nodup →
      (∀ t ∈ st.trades, t.date ∉ days) → tradesSpec sigs st →
      tradesSpec sigs (simLoop ctx ddca sigs days st) := by
  intro days
  induction days with
  | nil => exact fun st _ _ h => h
  | cons i rest ih =>
    intro st hnd hdates hspec
    obtain ⟨ts, hts, htsd, htslen, htslvl⟩ := dayStep_trades_spec ctx ddca sigs i st
    have hnotrest : i ∉ rest := (List.nodup_cons.mp hnd).1
    apply ih (dayStep ctx ddca sigs i st) (List.nodup_cons.mp hnd).2
    · intro t ht
      rw [hts] at ht
      rcases List.mem_append.mp ht with h | h
      · intro hc
        exact hdates t h (List.mem_cons_of_mem i hc)
      · rw [htsd t h]
        exact hnotrest
    · constructor
      · intro d
        rw [hts, List.filter_append, List.length_append]
        by_cases hdi : d = i
        · subst hdi
          have hold : ((st.trades.filter
              (fun t => t.ttype == "BUY 5X" && t.date == d)).length) = 0 := by
            rw [List.length_eq_zero, List.filter_eq_nil_iff]
            intro t ht hc
            simp only [Bool.and_eq_true, beq_iff_eq] at hc
            exact hdates t ht (hc.2 ▸ List.mem_cons_self d rest)
          rw [hold]
          have hsub : ((ts.filter
              (fun t => t.ttype == "BUY 5X" && t.date == d)).length) ≤
              ((ts.filter (fun t => t.ttype == "BUY 5X")).length) := by
            rw [← List.filter_filter]
            exact ((List.filter_sublist ts).filter _).length_le
          omega
        · have hnew : ((ts.filter
              (fun t => t.ttype == "BUY 5X" && t.date == d)).length) = 0 := by
            rw [List.length_eq_zero, List.filter_eq_nil_iff]
            intro t ht hc
            simp only [Bool.and_eq_true, beq_iff_eq] at hc
            exact hdi ((htsd t ht) ▸ hc.2).symm
          rw [hnew]
          have := hspec.1 d
          omega
      · intro t ht htt
        rw [hts] at ht
        rcases List.mem_append.mp ht with h | h
        · exact hspec.2 t h htt
        · rw [htsd t h]
          exact htslvl t h htt

/-- Every event of the day-i block carries date i. -/
theorem buyBlock_dates (data : List Row) (bands : List Band) (i : ℕ) :
    ∀ s ∈ buyBlock data bands i, s.date = i := by
  intro s hs
  unfold buyBlock at hs
  rcases List.mem_filterMap.mp hs with ⟨lb, _, hf⟩
  split at hf
  · simp only [Option.some.injEq] at hf
    subst hf
    rfl
  · exact absurd hf (by simp)

/-- Filtering the signal stream to a date that is in none of the scanned
days yields nothing. -/
theorem filter_flatMap_blocks_not_mem (data : List Row) (bands : List Band)
    (d : ℕ) : ∀ l : List ℕ, d ∉ l →
      ((l.flatMap (buyBlock data bands)).filter (fun s => s.date == d)) = [] := by
  intro l
  induction l with
  | nil => simp
  | cons i rest ih =>
    intro hd
    rw [List.flatMap_cons, List.filter_append,
      ih (fun hc => hd (List.mem_cons_of_mem i hc))]
    have hblock : (buyBlock data bands i).filter (fun s => s.date == d) = [] := by
      rw [List.filter_eq_nil_iff]
      intro s hs hc
      simp only [beq_iff_eq] at hc
      exact hd (by
        rw [← hc, buyBlock_dates data bands i s hs]
        exact List.mem_cons_self i rest)
    rw [hblock, List.append_nil]

/-- Filtering the signal stream to a date among the scanned (distinct)
days yields exactly that day's block. -/
theorem filter_flatMap_blocks (data : List Row) (bands : List Band) (d : ℕ) :
    ∀ l : List ℕ, l.Nodup → d ∈ l →
      ((l.flatMap (buyBlock data bands)).filter (fun s => s.date == d)) =
        buyBlock data bands d := by
  intro l
  induction l with
  | nil => intro _ h; exact absurd h (by simp)
  | cons i rest ih =>
    intro hnd hd
    rw [List.flatMap_cons, List.filter_append]
    by_cases hdi : d = i
    · subst hdi
      rw [filter_flatMap_blocks_not_mem data bands d rest (List.nodup_cons.mp hnd).1]
      have hblock : (buyBlock data bands d).filter (fun s => s.date == d) =
          buyBlock data bands d := by
        rw [List.filter_eq_self]
        intro s hs
        simp [buyBlock_dates data bands d s hs]
      rw [hblock, List.append_nil]
    · have hdr : d ∈ rest := by
        rcases List.mem_cons.mp hd with h | h
        · exact absurd h hdi
        · exact h
      rw [ih (List.nodup_cons.mp hnd).2 hdr]
      have hblock : (buyBlock data bands i).filter (fun s => s.date == d) = [] := by
        rw [List.filter_eq_nil_iff]
        intro s hs hc
        simp only [beq_iff_eq] at hc
        exact hdi ((buyBlock_dates data bands i s hs) ▸ hc).symm
      rw [hblock, List.nil_append]

/-- The last element of a day block is the event of the HIGHEST firing
band level of that day: events are emitted in ascending level order, so
getLast? picks the maximal qualifying level. -/
theorem buyBlock_getLast_spec (data : List Row) (d : ℕ) :
    ∀ (bs : List Band) (k : ℕ) (s : BuySig),
      ((enumLevelsFrom k bs).filterMap (fun lb =>
          if buySignalCond data lb.2 d then some (mkBuySig data lb.2 d lb.1)
          else none)).getLast? = some s →
      ∃ lvl b, (lvl, b) ∈ enumLevelsFrom k bs ∧ buySignalCond data b d = true ∧
        s = mkBuySig data b d lvl ∧
        ∀ lvl2 b2, (lvl2, b2) ∈ enumLevelsFrom k bs →
          buySignalCond data b2 d = true → lvl2 ≤ lvl := by
  intro bs
  induction bs with
  | nil => intro k s h; simp [enumLevelsFrom] at h
  | cons b rest ih =>
    intro k s h
    rw [show enumLevelsFrom k (b :: rest) = (k, b) :: enumLevelsFrom (k + 1) rest
      from rfl, List.filterMap_cons] at h
    by_cases hc : buySignalCond data b d = true
    · rw [if_pos hc] at h
      cases hrest : ((enumLevelsFrom (k + 1) rest).filterMap (fun lb =>
          if buySignalCond data lb.2 d then some (mkBuySig data lb.2 d lb.1)
          else none)).getLast? with
      | some s2 =>
        have hlast : ((mkBuySig data b d k) :: (enumLevelsFrom (k + 1) rest).filterMap
            (fun lb => if buySignalCond data lb.2 d then
              some (mkBuySig data lb.2 d lb.1) else none)).getLast? = some s2 :=
          Option.mem_def.mp (List.mem_getLast?_cons (Option.mem_def.mpr hrest))
        rw [hlast, Option.some.injEq] at h
        subst h
        obtain ⟨lvl, b2, hmem, hcond, hs, hmax⟩ := ih (k + 1) s2 hrest
        refine ⟨lvl, b2, List.mem_cons_of_mem _ hmem, hcond, hs, ?_⟩
        intro lvl2 b3 hmem2 hcond2
        rcases List.mem_cons.mp hmem2 with he | ht
        · have hk : lvl2 = k := (Prod.mk.injEq _ _ _ _ ▸ he).1
          have hge : k + 1 ≤ lvl := ((enumLevelsFrom_mem rest (k + 1) lvl b2).mp hmem).1
          omega
        · exact hmax lvl2 b3 ht hcond2
      | none =>
        have htail : (enumLevelsFrom (k + 1) rest).filterMap (fun lb =>
            if buySignalCond data lb.2 d then some (mkBuySig data lb.2 d lb.1)
            else none) = [] := List.getLast?_eq_none_iff.mp hrest
        rw [htail] at h
        simp only [List.getLast?_singleton, Option.some.injEq] at h
        subst h
        refine ⟨k, b, List.mem_cons_self _ _, hc, rfl, ?_⟩
        intro lvl2 b3 hmem2 hcond2
        rcases List.mem_cons.mp hmem2 with he | ht
        · have hk : lvl2 = k := (Prod.mk.injEq _ _ _ _ ▸ he).1
          omega
        · have := (List.filterMap_eq_nil_iff.mp htail) (lvl2, b3) ht
          rw [if_pos hcond2] at this
          exact absurd this (by simp)
    · rw [if_neg hc] at h
      obtain ⟨lvl, b2, hmem, hcond, hs, hmax⟩ := ih (k + 1) s h
      refine ⟨lvl, b2, List.mem_cons_of_mem _ hmem, hcond, hs, ?_⟩
      intro lvl2 b3 hmem2 hcond2
      rcases List.mem_cons.mp hmem2 with he | ht
      · have hb : b3 = b := (Prod.mk.injEq _ _ _ _ ▸ he).2
        exact absurd (hb ▸ hcond2) hc
      · exact hmax lvl2 b3 ht hcond2

/-- C10: every successful run makes at most one 5x zone purchase per
date, because the buy events are collapsed into a date-keyed dict before
the day loop; the level recorded on a zone purchase is the zone level of
the LAST event detect_buy_signals emitted for that date, which is the
highest (widest) band level firing on that date. -/
theorem zone_buy_once_per_date (ctx : SimCtx) (r : SimResult)
    (h : run_dca_simulation ctx = .ok r) :
    (∀ d, ((r.trades.filter
        (fun t => t.ttype == "BUY 5X" && t.date == d)).length ≤ 1)) ∧
    (∀ t ∈ r.trades, t.ttype = "BUY 5X" →
      ∃ s, zoneBuyLookup (detect_buy_signals ctx.data ctx.bands) t.date = some s ∧
        t.level = s.zone_level ∧
        ∃ b, (s.zone_level, b) ∈ enumLevels ctx.bands ∧
          buySignalCond ctx.data b t.date = true ∧
          s = mkBuySig ctx.data b t.date s.zone_level ∧
          ∀ lvl2 b2, (lvl2, b2) ∈ enumLevels ctx.bands →
            buySignalCond ctx.data b2 t.date = true → lvl2 ≤ s.zone_level) := by
  unfold run_dca_simulation at h
  split at h
  · exact absurd h (by simp)
  · simp only [Except.ok.injEq] at h
    subst h
    have hspec := simLoop_tradesSpec ctx (dailyDcaAmount ctx)
      (detect_buy_signals ctx.data ctx.bands) (List.range ctx.data.length)
      initSimState (List.nodup_range _) (by simp [initSimState])
      ⟨by simp [initSimState], by simp [initSimState]⟩
    constructor
    · intro d
      simpa [simAggregate] using hspec.1 d
    · intro t ht htt
      have htr : t ∈ (simLoop ctx (dailyDcaAmount ctx)
          (detect_buy_signals ctx.data ctx.bands) (List.range ctx.data.length)
          initSimState).trades := by
        simpa [simAggregate] using ht
      obtain ⟨s, hls, hlevel⟩ := hspec.2 t htr htt
      refine ⟨s, hls, hlevel, ?_⟩
      unfold zoneBuyLookup detect_buy_signals at hls
      by_cases hmem : t.date ∈ List.range' 1 (ctx.data.length - 1)
      · rw [filter_flatMap_blocks ctx.data ctx.bands t.date _
          (List.nodup_range' _ _) hmem] at hls
        unfold buyBlock enumLevels at hls
        obtain ⟨lvl, b, hmemb, hcond, hs, hmax⟩ :=
          buyBlock_getLast_spec ctx.data t.date ctx.bands 1 s hls
        have hzl : s.zone_level = lvl := by rw [hs]; rfl
        refine ⟨b, ?_, hcond, ?_, ?_⟩
        · unfold enumLevels
          rw [hzl]
          exact hmemb
        · rw [hzl]
          exact hs
        · intro lvl2 b2 hmem2 hcond2
          rw [hzl]
          exact hmax lvl2 b2 hmem2 hcond2
      · rw [filter_flatMap_blocks_not_mem ctx.data ctx.bands t.date _ hmem] at hls
        exact absurd hls (by simp)

/-- Witness for zone_buy_once_per_date: the concrete run on exceedCtx,
whose single day-1 zone buy instantiates the theorem. -/
theorem zone_buy_once_per_date_is_witnessed :
    (∀ d, (((simAggregate exceedCtx).trades.filter
        (fun t => t.ttype == "BUY 5X" && t.date == d)).length ≤ 1)) ∧
    (∀ t ∈ (simAggregate exceedCtx).trades, t.ttype = "BUY 5X" →
      ∃ s, zoneBuyLookup (detect_buy_signals exceedCtx.data exceedCtx.bands)
          t.date = some s ∧
        t.level = s.zone_level ∧
        ∃ b, (s.zone_level, b) ∈ enumLevels exceedCtx.bands ∧
          buySignalCond exceedCtx.data b t.date = true ∧
          s = mkBuySig exceedCtx.data b t.date s.zone_level ∧
          ∀ lvl2 b2, (lvl2, b2) ∈ enumLevels exceedCtx.bands →
            buySignalCond exceedCtx.data b2 t.date = true →
              lvl2 ≤ s.zone_level) :=
  zone_buy_once_per_date exceedCtx (simAggregate exceedCtx)
    (by simp [run_dca_simulation, exceedCtx])

/- ------------------------------------------------------------------ -/
/- C1: the sell-all event.                                             -/
/- ------------------------------------------------------------------ -/

/-- Characterization of the first qualifying take-profit level: the found
level satisfies the crossing condition and every level scanned before it
does not. -/
theorem findTPLevelAux_spec (i : ℕ) (yHigh tHigh tClose : ℚ) :
    ∀ (bs : List Band) (k L : ℕ),
      findTPLevelAux i yHigh tHigh tClose bs k = some L →
      k ≤ L ∧ L < k + bs.length ∧
      tpConditionAt (bs.getD (L - k) default) i yHigh tHigh tClose = true ∧
      ∀ j, j < L - k →
        tpConditionAt (bs.getD j default) i yHigh tHigh tClose = false := by
  intro bs
  induction bs with
  | nil => intro k L h; simp [findTPLevelAux] at h
  | cons b rest ih =>
    intro k L h
    rw [findTPLevelAux] at h
    by_cases hc : tpConditionAt b i yHigh tHigh tClose = true
    · rw [if_pos hc] at h
      simp only [Option.some.injEq] at h
      subst h
      refine ⟨le_refl _, by simp, ?_, ?_⟩
      · simpa using hc
      · intro j hj
        omega
    · rw [if_neg hc] at h
      obtain ⟨h1, h2, h3, h4⟩ := ih (k + 1) L h
      refine ⟨by omega, by simp only [List.length_cons]; omega, ?_, ?_⟩
      · rw [show L - k = (L - (k + 1)) + 1 by omega]
        simpa using h3
      · intro j hj
        match j with
        | 0 =>
          simp only [List.getD_cons_zero]
          exact Bool.not_eq_true _ ▸ hc
        | j + 1 =>
          have := h4 j (by omega)
          simpa using this

/-- C1 (amended): whenever a take-profit crossing is found on a day with
shares held, the sell phase liquidates the whole share balance at today's
close into realized cash, bumps the sell counter, stamps every open
position with sell date, price, the exit level, absolute profit,
roi = (sellPrice - buyPrice) / buyPrice * 100 (a percentage, not the bare
fraction) and hold days; the exit level is the FIRST qualifying band
level; and after the full day the share balance is exactly what today's
buy phase (if any) purchased, i.e. zero until the next buy. -/
theorem sell_all_event_spec (ctx : SimCtx) (ddca : ℚ) (sigs : List BuySig)
    (st : SimState) (i L : ℕ)
    (hsh : 0 < st.total_shares) (hi : 0 < i)
    (htp : findTPLevel ctx.bands i (ctx.data.getD (i - 1) default).high
      (ctx.data.getD i default).high (ctx.data.getD i default).close = some L) :
    (sellPhase ctx i st).cash_from_sales =
      st.cash_from_sales + st.total_shares * (ctx.data.getD i default).close ∧
    (sellPhase ctx i st).total_shares = 0 ∧
    (sellPhase ctx i st).sell_count = st.sell_count + 1 ∧
    (sellPhase ctx i st).position_history =
      st.position_history.map (stampPosition i (ctx.data.getD i default).close L) ∧
    (∀ pos ∈ st.position_history, pos.sell_date = none →
      stampPosition i (ctx.data.getD i default).close L pos =
        { pos with
          sell_date := some i,
          sell_price := some (ctx.data.getD i default).close,
          sell_level := some L,
          profit_loss :=
            some (((ctx.data.getD i default).close - pos.buy_price) * pos.shares),
          roi := some
            (((ctx.data.getD i default).close - pos.buy_price) / pos.buy_price * 100),
          hold_days := some (i - pos.buy_date) }) ∧
    (1 ≤ L ∧ L ≤ ctx.bands.length ∧
      tpConditionAt (ctx.bands.getD (L - 1) default) i
        (ctx.data.getD (i - 1) default).high (ctx.data.getD i default).high
        (ctx.data.getD i default).close = true ∧
      ∀ l, 1 ≤ l → l < L →
        tpConditionAt (ctx.bands.getD (l - 1) default) i
          (ctx.data.getD (i - 1) default).high (ctx.data.getD i default).high
          (ctx.data.getD i default).close = false) ∧
    (dayStep ctx ddca sigs i st).total_shares =
      (match zoneBuyLookup sigs i with
       | some _ => ddca * 5 / (ctx.data.getD i default).close
       | none =>
         if (ctx.data.getD i default).close < ctx.regression_values.getD i 0 then
           ddca / (ctx.data.getD i default).close
         else 0) := by
  have hsell : sellPhase ctx i st =
      { st with
        cash_from_sales :=
          st.cash_from_sales + st.total_shares * (ctx.data.getD i default).close,
        sell_count := st.sell_count + 1,
        position_history :=
          st.position_history.map (stampPosition i (ctx.data.getD i default).close L),
        trades := st.trades ++ [⟨i, "SELL", L, (ctx.data.getD i default).close,
          st.total_shares, st.total_shares * (ctx.data.getD i default).close⟩],
        total_shares := 0 } := by
    unfold sellPhase
    dsimp only
    rw [if_pos ⟨hsh, hi⟩, htp]
  obtain ⟨hk, hlen, hcond, hbefore⟩ :=
    findTPLevelAux_spec i (ctx.data.getD (i - 1) default).high
      (ctx.data.getD i default).high (ctx.data.getD i default).close
      ctx.bands 1 L htp
  refine ⟨by rw [hsell], by rw [hsell], by rw [hsell], by rw [hsell], ?_, ?_, ?_⟩
  · intro pos _ hopen
    unfold stampPosition
    rw [if_pos hopen]
  · refine ⟨hk, by omega, ?_, ?_⟩
    · simpa using hcond
    · intro l hl1 hlL
      have := hbefore (l - 1) (by omega)
      simpa using this
  · unfold dayStep
    rw [hsell]
    have hdiv : divPhase ctx i
        { st with
          cash_from_sales :=
            st.cash_from_sales + st.total_shares * (ctx.data.getD i default).close,
          sell_count := st.sell_count + 1,
          position_history :=
            st.position_history.map (stampPosition i (ctx.data.getD i default).close L),
          trades := st.trades ++ [⟨i, "SELL", L, (ctx.data.getD i default).close,
            st.total_shares, st.total_shares * (ctx.data.getD i default).close⟩],
          total_shares := 0 } =
        { st with
          cash_from_sales :=
            st.cash_from_sales + st.total_shares * (ctx.data.getD i default).close,
          sell_count := st.sell_count + 1,
          position_history :=
            st.position_history.map (stampPosition i (ctx.data.getD i default).close L),
          trades := st.trades ++ [⟨i, "SELL", L, (ctx.data.getD i default).close,
            st.total_shares, st.total_shares * (ctx.data.getD i default).close⟩],
          total_shares := 0 } := by
      unfold divPhase
      dsimp only
      rw [if_neg (by
        rintro ⟨-, -, hlt, -⟩
        exact lt_irrefl 0 hlt)]
    rw [hdiv]
    unfold buyPhase snapshotPhase
    dsimp only
    cases hz : zoneBuyLookup sigs i with
    | some sig =>
      dsimp only
      ring
    | none =>
      dsimp only
      split
      · dsimp only
        ring
      · rfl

/-- State with one share held and no open ledger, used to witness the
sell-all event. -/
def roiSt : SimState := ⟨0, 1, 0, 0, 0, [], [], 0, 0, 0, []⟩

/-- Context on which day 0 makes a daily DCA buy at close 1 and day 1
fires the take-profit crossing at close 2, doubling the position. -/
def roiCtx : SimCtx :=
  ⟨[⟨1, 1, 1⟩, ⟨2, 1, 2⟩], [⟨[0, 0], [10, 2]⟩], 2, 1, "Crypto", none, [2, 3 / 2]⟩

/-- Witness for sell_all_event_spec: on roiCtx at day 1 with one share
held, the crossing at level 1 is found and the theorem applies. -/
theorem sell_all_event_spec_is_witnessed :
    (sellPhase roiCtx 1 roiSt).cash_from_sales =
      roiSt.cash_from_sales +
        roiSt.total_shares * (roiCtx.data.getD 1 default).close ∧
    (sellPhase roiCtx 1 roiSt).total_shares = 0 ∧
    (sellPhase roiCtx 1 roiSt).sell_count = roiSt.sell_count + 1 ∧
    (sellPhase roiCtx 1 roiSt).position_history =
      roiSt.position_history.map
        (stampPosition 1 (roiCtx.data.getD 1 default).close 1) ∧
    (∀ pos ∈ roiSt.position_history, pos.sell_date = none →
      stampPosition 1 (roiCtx.data.getD 1 default).close 1 pos =
        { pos with
          sell_date := some 1,
          sell_price := some (roiCtx.data.getD 1 default).close,
          sell_level := some 1,
          profit_loss :=
            some (((roiCtx.data.getD 1 default).close - pos.buy_price) * pos.shares),
          roi := some
            (((roiCtx.data.getD 1 default).close - pos.buy_price) / pos.buy_price * 100),
          hold_days := some (1 - pos.buy_date) }) ∧
    (1 ≤ 1 ∧ 1 ≤ roiCtx.bands.length ∧
      tpConditionAt (roiCtx.bands.getD 0 default) 1
        (roiCtx.data.getD 0 default).high (roiCtx.data.getD 1 default).high
        (roiCtx.data.getD 1 default).close = true ∧
      ∀ l, 1 ≤ l → l < 1 →
        tpConditionAt (roiCtx.bands.getD (l - 1) default) 1
          (roiCtx.data.getD 0 default).high (roiCtx.data.getD 1 default).high
          (roiCtx.data.getD 1 default).close = false) ∧
    (dayStep roiCtx 1 [] 1 roiSt).total_shares =
      (match zoneBuyLookup [] 1 with
       | some _ => (1 : ℚ) * 5 / (roiCtx.data.getD 1 default).close
       | none =>
         if (roiCtx.data.getD 1 default).close <
             roiCtx.regression_values.getD 1 0 then
           (1 : ℚ) / (roiCtx.data.getD 1 default).close
         else 0) :=
  sell_all_event_spec roiCtx 1 [] roiSt 1 1 (by norm_num [roiSt]) (by norm_num)
    (by decide)

/-- C1 (counterexample to the claim as stated): on roiCtx the single
position is bought at 1 and sold at 2; the recorded roi field is 100,
the percentage, whereas the claimed formula (sellPrice - buyPrice) /
buyPrice gives 1. -/
theorem sell_all_roi_cex :
    run_dca_simulation roiCtx = .ok (simAggregate roiCtx) ∧
    ((simAggregate roiCtx).position_history.getD 0 default).buy_price = 1 ∧
    ((simAggregate roiCtx).position_history.getD 0 default).sell_price = some 2 ∧
    ((simAggregate roiCtx).position_history.getD 0 default).roi = some 100 ∧
    ¬ ((2 : ℚ) - 1) / 1 = 100 := by
  refine ⟨by simp [run_dca_simulation, roiCtx], ?_, ?_, ?_, by norm_num⟩ <;>
    norm_num [roiCtx, simAggregate, dailyDcaAmount, detect_buy_signals, buyBlock,
      enumLevels, enumLevelsFrom, buySignalCond, mkBuySig, simLoop, dayStep,
      sellPhase, divPhase, buyPhase, snapshotPhase, findTPLevel, findTPLevelAux,
      tpConditionAt, stampPosition, zoneBuyLookup, paysDividend, nextTPScan,
      nextTPUpdate, lastD, initSimState, List.range_succ, List.range',
      List.filterMap_cons, List.filterMap_nil, List.filter_cons, List.filter_nil,
      List.find?_cons, List.find?_nil, List.flatMap_cons, List.flatMap_nil,
      List.reverse_cons, List.reverse_nil]

/- ------------------------------------------------------------------ -/
/- IntensityOptimizer: optimize_degree.                                -/
/- ------------------------------------------------------------------ -/

/-- One row of all_results (simulator lines 1254-1262). -/
structure OptRecord where
  degree : ℕ
  roi : ℚ
  total_return : ℚ
  total_invested : ℚ
  daily_buys : ℕ
  zone_buys : ℕ
  sells : ℕ
deriving DecidableEq, Repr

/-- Return value of optimize_degree.  best_roi starts as the Python float
negative infinity, modelled as the bottom element of WithBot. -/
structure OptResult where
  optimal_degree : ℕ
  best_roi : WithBot ℚ
  all_results : List OptRecord
deriving DecidableEq

/-- Python range(a, b, s) for a positive step s. -/
def pyRange (a b s : ℕ) : List ℕ :=
  List.range' a ((b - a + s - 1) / s) s

/-- Inputs of one optimizer sweep (simulator line 1203).  The two numpy
standard deviations consumed by the enhanced fitting variant and the
residual standard deviation of the fit at each candidate degree are
irrational in general and are therefore carried as explicit inputs; none
of them influences the candidate enumeration or the selection logic under
test. -/
structure OptCtx where
  data : List Row
  total_budget : ℚ
  investment_years : ℚ
  asset_type : String
  dividend_info : Option DividendInfo
  degree_min : ℕ
  degree_max : ℕ
  step : ℕ
  use_original_method : Bool
  xstd : ℚ
  ystd : ℚ
  stdResOf : ℕ → ℚ

/-- Routing of calculate_regression_curve (simulator lines 634-641) as
invoked by the optimizer on the Close column. -/
def optFit (oc : OptCtx) (deg : ℕ) : Except FitError FitOutput :=
  if oc.use_original_method then
    calculate_regression_curve_original (oc.data.map (fun row => row.close)) deg
  else
    calculate_regression_curve_enhanced (oc.data.map (fun row => row.close)) deg
      oc.xstd oc.ystd

/-- Last k elements of a list: the iloc[-k:] slice. -/
def lastN {α : Type} (k : ℕ) (l : List α) : List α :=
  l.drop (l.length - k)

/-- The try-block body of the optimizer loop (simulator lines 1218-1262)
for one candidate degree: fit, build bands, truncate everything to the
last 252 * investment_years trading days when longer, simulate, and
collect the record; any error is the caught exception, yielding none
(the candidate is skipped).  int(252 * years) truncates toward zero,
which is the floor for the nonnegative horizons the caller admits. -/
def optEval (oc : OptCtx) (deg : ℕ) : Option OptRecord :=
  match optFit oc deg with
  | .error _ => none
  | .ok fo =>
    let bands := mkBands fo.regression (oc.stdResOf deg) 4
    let needed := (Int.floor (252 * oc.investment_years)).toNat
    let simData := if needed < oc.data.length then lastN needed oc.data else oc.data
    let simReg :=
      if needed < oc.data.length then lastN needed fo.regression else fo.regression
    let simBands :=
      if needed < oc.data.length then
        bands.map (fun b => ⟨lastN needed b.lower, lastN needed b.upper⟩)
      else bands
    match run_dca_simulation ⟨simData, simBands, oc.total_budget,
        oc.investment_years, oc.asset_type, oc.dividend_info, simReg⟩ with
    | .error _ => none
    | .ok r =>
      some ⟨deg, r.roi_percentage, r.total_return, r.total_invested,
        r.daily_buy_count, r.zone_buy_count, r.sell_count⟩

/-- Candidate loop of optimize_degree: the accumulator carries results,
best_roi and best_degree; a successful candidate is always appended to
the results and replaces the best exactly when its roi is strictly
greater. -/
def optLoop (ev : ℕ → Option OptRecord) :
    List ℕ → List OptRecord × WithBot ℚ × ℕ → List OptRecord × WithBot ℚ × ℕ
  | [], acc => acc
  | d :: rest, (res, best, bdeg) =>
    match ev d with
    | none => optLoop ev rest (res, best, bdeg)
    | some orec =>
      if best < (orec.roi : WithBot ℚ) then
        optLoop ev rest (res ++ [orec], (orec.roi : WithBot ℚ), d)
      else
        optLoop ev rest (res ++ [orec], best, bdeg)

/-- Embeds optimize_degree (simulator lines 1203-1276): sweep the
candidate degrees range(min, max+1, step), skip failing candidates, keep
the first strictly-best roi, return the range minimum and bottom roi when
every candidate failed. -/
def optimize_degree (oc : OptCtx) : OptResult :=
  let cands := pyRange oc.degree_min (oc.degree_max + 1) oc.step
  let fin := optLoop (optEval oc) cands ([], ⊥, oc.degree_min)
  ⟨fin.2.2, fin.2.1, fin.1⟩

/-- A successful candidate record carries its own degree. -/
theorem optEval_degree (oc : OptCtx) (deg : ℕ) (orec : OptRecord)
    (h : optEval oc deg = some orec) : orec.degree = deg := by
  unfold optEval at h
  split at h
  · exact absurd h (by simp)
  · dsimp only at h
    split at h
    · exact absurd h (by simp)
    · simp only [Option.some.injEq] at h
      subst h
      rfl

/-- One iteration of the optimizer loop. -/
def optStep (ev : ℕ → Option OptRecord) (d : ℕ)
    (acc : List OptRecord × WithBot ℚ × ℕ) : List OptRecord × WithBot ℚ × ℕ :=
  match ev d with
  | none => acc
  | some orec =>
    if acc.2.1 < (orec.roi : WithBot ℚ) then (acc.1 ++ [orec], (orec.roi : WithBot ℚ), d)
    else (acc.1 ++ [orec], acc.2.1, acc.2.2)

/-- The loop is the fold of its step. -/
theorem optLoop_cons (ev : ℕ → Option OptRecord) (d : ℕ) (rest : List ℕ)
    (acc : List OptRecord × WithBot ℚ × ℕ) :
    optLoop ev (d :: rest) acc = optLoop ev rest (optStep ev d acc) := by
  obtain ⟨res, best, bdeg⟩ := acc
  rw [optLoop]
  unfold optStep
  cases hv : ev d with
  | none => rfl
  | some orec =>
    dsimp only
    by_cases hb : best < (orec.roi : WithBot ℚ)
    · rw [if_pos hb, if_pos hb]
    · rw [if_neg hb, if_neg hb]

/-- The loop splits over list concatenation. -/
theorem optLoop_append (ev : ℕ → Option OptRecord) :
    ∀ (xs ys : List ℕ) (acc : List OptRecord × WithBot ℚ × ℕ),
      optLoop ev (xs ++ ys) acc = optLoop ev ys (optLoop ev xs acc) := by
  intro xs
  induction xs with
  | nil => intro ys acc; rfl
  | cons x rest ih =>
    intro ys acc
    rw [List.cons_append, optLoop_cons, optLoop_cons, ih]

/-- The optimizer loop appends exactly the successful candidates, in
order. -/
theorem optLoop_results (ev : ℕ → Option OptRecord) :
    ∀ (cands : List ℕ) (acc : List OptRecord × WithBot ℚ × ℕ),
      (optLoop ev cands acc).1 = acc.1 ++ cands.filterMap ev := by
  intro cands
  induction cands with
  | nil => intro acc; simp [optLoop]
  | cons d rest ih =>
    intro acc
    rw [optLoop_cons, ih, List.filterMap_cons]
    unfold optStep
    cases hv : ev d with
    | none => rfl
    | some orec =>
      dsimp only
      by_cases hb : acc.2.1 < (orec.roi : WithBot ℚ)
      · rw [if_pos hb]
        simp
      · rw [if_neg hb]
        simp

/-- Successful degrees listed by filterMap match the filter by success. -/
theorem filterMap_degrees (ev : ℕ → Option OptRecord)
    (hdeg : ∀ d orec, ev d = some orec → orec.degree = d) :
    ∀ cands : List ℕ, (cands.filterMap ev).map (fun r => r.degree) =
      cands.filter (fun d => (ev d).isSome) := by
  intro cands
  induction cands with
  | nil => simp
  | cons d rest ih =>
    rw [List.filterMap_cons, List.filter_cons]
    cases hv : ev d with
    | none => simpa using ih
    | some orec =>
      simp [hdeg d orec hv, ih]

/-- When every remaining successful roi is at most the current best, the
strict comparison never fires and best and best-degree are final. -/
theorem optLoop_skip (ev : ℕ → Option OptRecord) :
    ∀ (cands : List ℕ) (res : List OptRecord) (best : WithBot ℚ) (bdeg : ℕ),
      (∀ d ∈ cands, ∀ orec, ev d = some orec → (orec.roi : WithBot ℚ) ≤ best) →
      (optLoop ev cands (res, best, bdeg)).2 = (best, bdeg) := by
  intro cands
  induction cands with
  | nil => intro res best bdeg _; rfl
  | cons d rest ih =>
    intro res best bdeg hle
    rw [optLoop_cons]
    unfold optStep
    cases hv : ev d with
    | none =>
      exact ih res best bdeg (fun x hx => hle x (List.mem_cons_of_mem d hx))
    | some orec =>
      dsimp only
      rw [if_neg (not_lt.mpr (hle d (List.mem_cons_self d rest) orec hv))]
      exact ih _ best bdeg (fun x hx => hle x (List.mem_cons_of_mem d hx))

/-- Processing candidates whose successful rois are all strictly below r
keeps the running best strictly below r. -/
theorem optLoop_lt (ev : ℕ → Option OptRecord) (r : ℚ) :
    ∀ (cands : List ℕ) (acc : List OptRecord × WithBot ℚ × ℕ),
      acc.2.1 < (r : WithBot ℚ) →
      (∀ d ∈ cands, ∀ orec, ev d = some orec → orec.roi < r) →
      (optLoop ev cands acc).2.1 < (r : WithBot ℚ) := by
  intro cands
  induction cands with
  | nil => intro acc h _; exact h
  | cons d rest ih =>
    intro acc hacc hlt
    rw [optLoop_cons]
    refine ih (optStep ev d acc) ?_ (fun x hx => hlt x (List.mem_cons_of_mem d hx))
    unfold optStep
    cases hv : ev d with
    | none => exact hacc
    | some orec =>
      have hroi : (orec.roi : WithBot ℚ) < (r : WithBot ℚ) :=
        WithBot.coe_lt_coe.mpr (hlt d (List.mem_cons_self d rest) orec hv)
      dsimp only
      by_cases hb : acc.2.1 < (orec.roi : WithBot ℚ)
      · rw [if_pos hb]
        exact hroi
      · rw [if_neg hb]
        exact hacc

/-- C8: optimize_degree records exactly the candidates of
range(min, max+1, step) that do not fail, and returns as optimal the
candidate whose roi is strictly greater than every earlier successful roi
and at least every later one: the first candidate attaining the maximal
roi, since the comparison is strict. -/
theorem optimize_degree_first_max (oc : OptCtx) (d : ℕ) (r : ℚ)
    (orec : OptRecord) (l1 l2 : List ℕ)
    (hsplit : pyRange oc.degree_min (oc.degree_max + 1) oc.step = l1 ++ d :: l2)
    (hd : optEval oc d = some orec) (hr : orec.roi = r)
    (hbefore : ∀ d2 ∈ l1, ∀ orec2, optEval oc d2 = some orec2 → orec2.roi < r)
    (hafter : ∀ d2 ∈ l2, ∀ orec2, optEval oc d2 = some orec2 → orec2.roi ≤ r) :
    (optimize_degree oc).optimal_degree = d ∧
    (optimize_degree oc).best_roi = (r : WithBot ℚ) ∧
    (optimize_degree oc).all_results.map (fun rr => rr.degree) =
      (pyRange oc.degree_min (oc.degree_max + 1) oc.step).filter
        (fun d2 => (optEval oc d2).isSome) := by
  subst hr
  have hres : (optimize_degree oc).all_results.map (fun rr => rr.degree) =
      (pyRange oc.degree_min (oc.degree_max + 1) oc.step).filter
        (fun d2 => (optEval oc d2).isSome) := by
    unfold optimize_degree
    dsimp only
    rw [optLoop_results, List.nil_append,
      filterMap_degrees (optEval oc) (optEval_degree oc)]
  refine ⟨?_, ?_, hres⟩ <;>
  · unfold optimize_degree
    dsimp only
    rw [hsplit, optLoop_append]
    rcases hstate : optLoop (optEval oc) l1 ([], ⊥, oc.degree_min) with
      ⟨res1, best1, bdeg1⟩
    have hlt : best1 < ((orec.roi : ℚ) : WithBot ℚ) := by
      have hrun := optLoop_lt (optEval oc) orec.roi l1 ([], ⊥, oc.degree_min)
        (WithBot.bot_lt_coe _) hbefore
      rw [hstate] at hrun
      exact hrun
    have hstep : optStep (optEval oc) d (res1, best1, bdeg1) =
        (res1 ++ [orec], ((orec.roi : ℚ) : WithBot ℚ), d) := by
      unfold optStep
      rw [hd]
      dsimp only
      rw [if_pos hlt]
    rw [optLoop_cons, hstep,
      optLoop_skip (optEval oc) l2 (res1 ++ [orec]) ((orec.roi : ℚ) : WithBot ℚ) d
        (fun d2 hd2 orec2 hv => WithBot.coe_le_coe.mpr (hafter d2 hd2 orec2 hv))]

/-- Concrete sweep used to witness the optimizer selection rule: the
single candidate degree 1 on a two-row series under the original variant.
Both closes sit exactly on the linear fit, so the simulation buys nothing
and the recorded roi is 0. -/
def optW : OptCtx :=
  ⟨[⟨1, 1, 1⟩, ⟨2, 2, 2⟩], 2, 1, "Crypto", none, 1, 1, 1, true, 0, 0, fun _ => 0⟩

set_option maxHeartbeats 2000000 in
/-- Witness for optimize_degree_first_max: on the sweep optW the single
candidate 1 succeeds with roi 0 and is selected. -/
theorem optimize_degree_first_max_is_witnessed :
    (optimize_degree optW).optimal_degree = 1 ∧
    (optimize_degree optW).best_roi = ((0 : ℚ) : WithBot ℚ) ∧
    (optimize_degree optW).all_results.map (fun rr => rr.degree) =
      (pyRange optW.degree_min (optW.degree_max + 1) optW.step).filter
        (fun d2 => (optEval optW d2).isSome) :=
  optimize_degree_first_max optW 1 0 ⟨1, 0, 0, 0, 0, 0, 0⟩ [] []
    (by norm_num [optW, pyRange, List.range'])
    (by norm_num [optW, optEval, optFit, calculate_regression_curve_original,
      clampDegree, polyfitValues, polyfitCoeffs, cramerSolve, detQ, replaceCol,
      dropCol, polyValueAt, polyValueAux, mkBands, bandFor, lastN,
      run_dca_simulation, simAggregate, dailyDcaAmount, detect_buy_signals,
      buyBlock, enumLevels, enumLevelsFrom, buySignalCond, mkBuySig, simLoop,
      dayStep, sellPhase, divPhase, buyPhase, snapshotPhase, findTPLevel,
      findTPLevelAux, tpConditionAt, stampPosition, zoneBuyLookup, paysDividend,
      nextTPScan, nextTPUpdate, lastD, initSimState, List.range_succ,
      List.range', List.filterMap_cons, List.filterMap_nil, List.filter_cons,
      List.filter_nil, List.find?_cons, List.find?_nil, List.flatMap_cons,
      List.flatMap_nil, List.reverse_cons, List.reverse_nil, Int.toNat_ofNat])
    rfl (by simp) (by simp)

end DcaEngine
